import Mathlib

/-!
Shallow embedding of the inky e-paper display driver (Rust) and proofs of
its specified properties.

The embedding covers:
- the logical color type (`Color`, from `core::colors`, whose six variants
  are exactly those matched exhaustively in `inkye673.rs`);
- the two pixel-format converters (`InkyE673.convert`, `InkyWhat.convert`),
  translated statement-by-statement from `src/hardware/inkye673.rs` and
  `src/hardware/inkywhat.rs`; machine `u8` arithmetic is modelled as `Nat`
  with explicit `% 256` where the Rust operation is a `u8` operation;
- the hardware transaction traces of `InkyE673::reset`/`update`, the pin
  effects of both families' `spi_send`, and both families' `wait`,
  modelled as explicit event traces / state transformers;
- the drawing layer of `src/inky.rs` (`Canvas`, `Line`, `Rectangle`);
  fallible indexing (`Vec` indexing that panics when out of bounds) is
  modelled with `Option`.
-/

/-- Color type from `core::colors`. The exhaustive (no wildcard) match in
`inkye673.rs::as_u8` shows these six variants are all of them. -/
inductive Color where
  | Black
  | White
  | Yellow
  | Red
  | Blue
  | Green
deriving DecidableEq, Repr

namespace InkyE673

/-- Translation of `as_u8` in `src/hardware/inkye673.rs` (lines 38-47). -/
def as_u8 (color : Color) : Nat :=
  match color with
  | Color.Black => 0
  | Color.White => 1
  | Color.Yellow => 2
  | Color.Red => 3
  | Color.Blue => 5
  | Color.Green => 6

/-- Body of the `for pair in row.chunks(2)` loop of `InkyE673::convert`:
packs consecutive pixel pairs into single bytes, high nibble first.
The `% 256` is the `u8` semantics of the Rust shift `pixel1 << 4`. -/
def packPairs : List Color → List Nat
  | pixel1 :: pixel2 :: rest =>
      ((((as_u8 pixel1) <<< 4) % 256 &&& 0xF0) ||| ((as_u8 pixel2) &&& 0x0F))
        :: packPairs rest
  | _ => []

/-- Translation of `InkyE673::convert` (lines 191-203): for each row in
order, `ensure!(row.len() % 2 == 0)` then pack the row's pixel pairs;
an odd row aborts the whole call with an error and the partially built
buffer is discarded. -/
def convert : List (List Color) → Except String (List Nat)
  | [] => Except.ok []
  | row :: rest =>
      if row.length % 2 = 0 then
        match convert rest with
        | Except.ok r => Except.ok (packPairs row ++ r)
        | Except.error e => Except.error e
      else Except.error "Row length must be even!"

end InkyE673

namespace InkyWhat

/-- Translation of `as_u8` in `src/hardware/inkywhat.rs` (lines 41-47):
1 for every non-Black color, 0 for Black. -/
def as_u8 (color : Color) : Nat :=
  if color ≠ Color.Black then 1 else 0

/-- State threaded through `InkyWhat::convert`'s loops: the output bytes
built so far, the byte being filled, and the next bit position in it. -/
structure ConvState where
  result : List Nat
  cur_byte : Nat
  bit_pos : Nat
deriving DecidableEq, Repr

/-- Body of the inner `for b in row` loop of `InkyWhat::convert`
(lines 241-251): OR the pixel's bit into `cur_byte` at `bit_pos`
(a `u8` operation, hence `% 256`), and flush the byte when full. -/
def convStep (st : ConvState) (b : Color) : ConvState :=
  let cur_byte := st.cur_byte ||| (((as_u8 b) <<< st.bit_pos) % 256)
  let bit_pos := st.bit_pos + 1
  if bit_pos = 8 then
    { result := st.result ++ [cur_byte], cur_byte := 0, bit_pos := 0 }
  else
    { result := st.result, cur_byte := cur_byte, bit_pos := bit_pos }

/-- Translation of `InkyWhat::convert` (lines 237-256): fold `convStep`
over all pixels of all rows (the state, in particular `bit_pos`, carries
across row boundaries), then push the final partial byte if nonempty. -/
def convert (buf : List (List Color)) : Except String (List Nat) :=
  let final := buf.foldl (fun st row => row.foldl convStep st) ⟨[], 0, 0⟩
  if final.bit_pos ≠ 0 then Except.ok (final.result ++ [final.cur_byte])
  else Except.ok final.result

end InkyWhat

/-- One SPI packet as in `src/hardware/display.rs`: one command (opcode)
byte and an optional payload. -/
structure SpiPacket where
  command : Nat
  data : Option (List Nat)
deriving DecidableEq, Repr

/-- Constructor `SpiPacket::with_data`. -/
def SpiPacket.with_data (command : Nat) (data : List Nat) : SpiPacket :=
  { command := command, data := some data }

/-- Constructor `SpiPacket::no_data`. -/
def SpiPacket.no_data (command : Nat) : SpiPacket :=
  { command := command, data := none }

/-- Driver-level hardware event: one observable action performed by a
driver's `reset`/`update` (reset-line writes, sleeps, busy waits, and
whole SPI transactions; timeouts in milliseconds). -/
inductive HwEvent where
  | setReset (high : Bool)
  | sleepMs (ms : Nat)
  | waitBusy (timeoutMs : Option Nat)
  | spi (command : Nat) (data : Option (List Nat))
deriving DecidableEq, Repr

/-- Pin-level operation performed inside `spi_send` (chip-select writes,
data/command writes, sleeps, and raw bus writes). -/
inductive SpiOp where
  | csSet (high : Bool)
  | dcSet (high : Bool)
  | sleepMs (ms : Nat)
  | busWrite (bytes : List Nat)
deriving DecidableEq, Repr

/-- Levels of the two control output pins driven by `spi_send`
(`true` = high). In `InkyConnection::new` the chip-select pin starts
high (`into_output_high`) and data/command starts low
(`into_output_low`). -/
structure PinState where
  cs : Bool
  dc : Bool
deriving DecidableEq, Repr

/-- Effect of one pin-level operation on the control pin levels. -/
def applyOp (s : PinState) : SpiOp → PinState
  | SpiOp.csSet b => { s with cs := b }
  | SpiOp.dcSet b => { s with dc := b }
  | SpiOp.sleepMs _ => s
  | SpiOp.busWrite _ => s

/-- Pin levels after a sequence of pin-level operations. -/
def applyOps (s : PinState) (ops : List SpiOp) : PinState :=
  ops.foldl applyOp s

/-- Trigger polarities of the GPIO edge watch (`rppal::gpio::Trigger`
variants used by the two drivers). -/
inductive Trigger where
  | risingEdge
  | fallingEdge
deriving DecidableEq, Repr

/-- Modelled from the spec: the outcome of the external GPIO facility's
edge-wait primitive. Spec section 6 gives the facility's contract as
`line.block-until-edge-or-timeout(timeout) → fired | timed-out` (a value
distinguishing the two outcomes, with I/O errors separate); the `rppal`
crate realising it is not part of this repository's sources. -/
inductive PollOutcome where
  | fired
  | timedOut
deriving DecidableEq, Repr

/-- Environment a `wait` call runs in: the busy-pin level at entry and the
results of the three GPIO-facility calls (arm watch, block until edge or
timeout, disarm watch), each of which may fail with an I/O error.
The poll result carries a `PollOutcome` on success (see `PollOutcome`). -/
structure GpioEnv where
  busyHigh : Bool
  armResult : Except String Unit
  pollResult : Except String PollOutcome
  clearResult : Except String Unit

/-- Observable action of a `wait` call. -/
inductive WaitEv where
  | slept (ms : Nat)
  | armed (t : Trigger)
  | polled
  | cleared
deriving DecidableEq, Repr

namespace InkyE673

/-- Opcode values of the `DisplayCommands` enum in
`src/hardware/inkye673.rs` (only those the driver sends). -/
def EL673_PSR : Nat := 0x00
def EL673_PWR : Nat := 0x01
def EL673_POF : Nat := 0x02
def EL673_POFS : Nat := 0x03
def EL673_PON : Nat := 0x04
def EL673_BTST1 : Nat := 0x05
def EL673_BTST2 : Nat := 0x06
def EL673_BTST3 : Nat := 0x08
def EL673_DTM1 : Nat := 0x10
def EL673_DRF : Nat := 0x12
def EL673_PLL : Nat := 0x30
def EL673_CDI : Nat := 0x50
def EL673_TCON : Nat := 0x60
def EL673_TRES : Nat := 0x61
def EL673_VDCS : Nat := 0x82
def EL673_PWS : Nat := 0xE3

/-- Translation of `InkyE673::reset` (lines 63-128) as the ordered trace
of hardware events it performs when every step succeeds: the reset-line
pulse with its two 30 ms holds, the 300 ms busy wait, then the thirteen
configuration transactions in source order. -/
def resetTrace : List HwEvent :=
  [HwEvent.setReset false, HwEvent.sleepMs 30,
   HwEvent.setReset true, HwEvent.sleepMs 30,
   HwEvent.waitBusy (some 300),
   HwEvent.spi 0xAA (some [0x49, 0x55, 0x20, 0x08, 0x09, 0x18]),
   HwEvent.spi EL673_PWR (some [0x3F]),
   HwEvent.spi EL673_PSR (some [0x5F, 0x69]),
   HwEvent.spi EL673_BTST1 (some [0x40, 0x1F, 0x1F, 0x2C]),
   HwEvent.spi EL673_BTST3 (some [0x6F, 0x1F, 0x1F, 0x22]),
   HwEvent.spi EL673_BTST2 (some [0x6F, 0x1F, 0x17, 0x17]),
   HwEvent.spi EL673_POFS (some [0x00, 0x54, 0x00, 0x44]),
   HwEvent.spi EL673_TCON (some [0x02, 0x00]),
   HwEvent.spi EL673_PLL (some [0x08]),
   HwEvent.spi EL673_CDI (some [0x3F]),
   HwEvent.spi EL673_TRES (some [0x03, 0x20, 0x01, 0xE0]),
   HwEvent.spi EL673_PWS (some [0x2F]),
   HwEvent.spi EL673_VDCS (some [0x01])]

/-- Translation of `InkyE673::update` (lines 130-155) as the ordered trace
of hardware events of a successful call: the full `reset` trace, then
the pixel-data transaction carrying `buf`, power-on, a wait, the second
booster-soft-start transaction, the refresh trigger, the long refresh
wait, power-off, and a final wait. -/
def updateTrace (buf : List Nat) : List HwEvent :=
  resetTrace ++
  [HwEvent.spi EL673_DTM1 (some buf),
   HwEvent.spi EL673_PON none,
   HwEvent.waitBusy (some 300),
   HwEvent.spi EL673_BTST2 (some [0x6F, 0x1F, 0x17, 0x49]),
   HwEvent.spi EL673_DRF (some [0x00]),
   HwEvent.waitBusy (some 32000),
   HwEvent.spi EL673_POF (some [0x00]),
   HwEvent.waitBusy (some 300)]

/-- Translation of `InkyE673::wait` (lines 157-170): if the busy pin reads
high at entry, sleep for the timeout (default 100 ms) and return Ok
without touching the edge-watch machinery; otherwise arm a rising-edge
watch, poll it (the successful poll's fired/timed-out value is discarded
by the `?` operator), clear it, and return Ok — propagating only I/O
errors of the three GPIO calls. Returns the events performed and the
call's result. -/
def wait (env : GpioEnv) (timeout : Option Nat) :
    List WaitEv × Except String Unit :=
  if env.busyHigh then
    ([WaitEv.slept (timeout.getD 100)], Except.ok ())
  else
    match env.armResult with
    | Except.error e => ([], Except.error e)
    | Except.ok _ =>
      match env.pollResult with
      | Except.error e => ([WaitEv.armed Trigger.risingEdge], Except.error e)
      | Except.ok _ =>
        match env.clearResult with
        | Except.error e =>
            ([WaitEv.armed Trigger.risingEdge, WaitEv.polled], Except.error e)
        | Except.ok _ =>
            ([WaitEv.armed Trigger.risingEdge, WaitEv.polled, WaitEv.cleared],
             Except.ok ())

/-- Translation of `InkyE673::spi_send` (lines 172-189) as the ordered
pin-level operations of a successful call: select low, data/command low,
a 300 ms setup delay, the opcode write, then for a payload packet
data/command high and the payload in 4096-byte chunks, and finally
select back high and data/command back low. -/
def spi_send (packet : SpiPacket) : List SpiOp :=
  [SpiOp.csSet false, SpiOp.dcSet false, SpiOp.sleepMs 300,
   SpiOp.busWrite [packet.command]] ++
  (match packet.data with
   | some data => SpiOp.dcSet true :: (data.toChunks 4096).map SpiOp.busWrite
   | none => []) ++
  [SpiOp.csSet true, SpiOp.dcSet false]

end InkyE673

namespace InkyWhat

/-- Translation of `InkyWhat::wait` (lines 216-221): unconditionally arm a
falling-edge watch, poll it (the successful poll's fired/timed-out value
is discarded by the `?` operator), clear it, and return Ok — propagating
only I/O errors of the three GPIO calls. There is no level-sense branch
in this family. -/
def wait (env : GpioEnv) (_timeout : Option Nat) :
    List WaitEv × Except String Unit :=
  match env.armResult with
  | Except.error e => ([], Except.error e)
  | Except.ok _ =>
    match env.pollResult with
    | Except.error e => ([WaitEv.armed Trigger.fallingEdge], Except.error e)
    | Except.ok _ =>
      match env.clearResult with
      | Except.error e =>
          ([WaitEv.armed Trigger.fallingEdge, WaitEv.polled], Except.error e)
      | Except.ok _ =>
          ([WaitEv.armed Trigger.fallingEdge, WaitEv.polled, WaitEv.cleared],
           Except.ok ())

/-- Translation of `InkyWhat::spi_send` (lines 223-235) as the ordered
pin-level operations of a successful call: data/command low, the opcode
write, then for a payload packet data/command high and the payload in
4096-byte chunks. This family's `spi_send` never touches the chip-select
pin and performs no trailing pin restore. -/
def spi_send (packet : SpiPacket) : List SpiOp :=
  [SpiOp.dcSet false, SpiOp.busWrite [packet.command]] ++
  (match packet.data with
   | some data => SpiOp.dcSet true :: (data.toChunks 4096).map SpiOp.busWrite
   | none => [])

end InkyWhat

namespace Inky

/-- Translation of `Inky::update` in `src/inky.rs` (lines 162-165) for an
E673-family facade: convert the canvas pixel grid, and only on success
hand the buffer to the driver's `update` (whose successful hardware
trace is `InkyE673.updateTrace`); a conversion error is returned
unchanged and no hardware event is emitted. -/
def update (pixels : List (List Color)) : Except String (List HwEvent) :=
  match InkyE673.convert pixels with
  | Except.ok buf => Except.ok (InkyE673.updateTrace buf)
  | Except.error e => Except.error e

end Inky

/-- Conversion of a (possibly negative) `isize` value to `usize`, as the
Rust cast `as usize` performs it: reduction modulo 2^64 (the target is a
64-bit platform). -/
def usizeOfInt (i : Int) : Nat := (i % (2 ^ 64)).toNat

/-- Line shape from `src/inky.rs` (lines 19-22). The second field is named
`end` in the source, a reserved word here. -/
structure Line where
  start : Int × Int
  stop : Int × Int
deriving DecidableEq, Repr

/-- Loop body of `Line::line_coordinates` (lines 44-58), with the loop
expressed by structural recursion on a fuel argument. On every input
where the Rust loop terminates it does so within `|dx| + |dy| + 1`
iterations (each iteration moves `x0` or `y0` one step toward its
target), so the fuel supplied by `Line.line_coordinates` below is never
exhausted there; on inputs where the Rust loop diverges the model
truncates the (infinite) output. -/
def lineLoop (x1 y1 sx sy dx dy : Int) :
    Nat → Int → Int → Int → List (Nat × Nat)
  | 0, _, _, _ => []
  | fuel + 1, x0, y0, err =>
      let pt := (usizeOfInt x0, usizeOfInt y0)
      if x0 = x1 ∧ y0 = y1 then
        [pt]
      else
        let e2 := 2 * err
        let err1 := if e2 ≥ dy then err + dy else err
        let x0' := if e2 ≥ dy then x0 + sx else x0
        let err2 := if e2 ≤ dx then err1 + dx else err1
        let y0' := if e2 ≤ dx then y0 + sy else y0
        pt :: lineLoop x1 y1 sx sy dx dy fuel x0' y0' err2

/-- Translation of `Line::line_coordinates` (lines 30-61): Bresenham-style
rasterization. Note the source computes `dx = x1 - x0` and
`dy = -(y1 - y0)` without absolute values. -/
def Line.line_coordinates (l : Line) : List (Nat × Nat) :=
  let x0 := l.start.1
  let y0 := l.start.2
  let x1 := l.stop.1
  let y1 := l.stop.2
  let dx := x1 - x0
  let dy := -(y1 - y0)
  let sx : Int := if x0 < x1 then 1 else -1
  let sy : Int := if y0 < y1 then 1 else -1
  lineLoop x1 y1 sx sy dx dy
    ((x1 - x0).natAbs + (y1 - y0).natAbs + 1) x0 y0 (dx + dy)

/-- Rectangle shape from `src/inky.rs` (lines 70-73). -/
structure Rectangle where
  top_left : Nat × Nat
  bottom_right : Nat × Nat
deriving DecidableEq, Repr

/-- Translation of `Rectangle::rectangle_coordinates` (lines 84-94): every
cell of the inclusive box, row-major. A Rust inclusive range `a..=b`
yields `b + 1 - a` values `a, a+1, …, b` (none when `a > b`; truncated
subtraction matches this). -/
def Rectangle.rectangle_coordinates (r : Rectangle) : List (Nat × Nat) :=
  ((List.range (r.bottom_right.1 + 1 - r.top_left.1)).map
    (fun i => r.top_left.1 + i)).flatMap fun row =>
    ((List.range (r.bottom_right.2 + 1 - r.top_left.2)).map
      (fun j => r.top_left.2 + j)).map fun col => (row, col)

/-- Canvas from `src/inky.rs` (lines 103-107). -/
structure Canvas where
  width : Nat
  height : Nat
  pixels : List (List Color)
deriving DecidableEq, Repr

namespace Canvas

/-- Translation of `Canvas::new` (lines 111-117): `height` rows of
`width` default-white pixels. -/
def new (width height : Nat) : Canvas :=
  { width := width, height := height,
    pixels := List.replicate height (List.replicate width Color.White) }

/-- Translation of `Canvas::get_pixel` (lines 120-122): reads
`pixels[col][row]` — the FIRST parameter indexes the outer vector.
Out-of-bounds indexing (a Rust panic) is modelled as `none`. -/
def get_pixel (canvas : Canvas) (col row : Nat) : Option Color :=
  (canvas.pixels[col]?).bind fun r => r[row]?

/-- Translation of `Canvas::set_pixel` (lines 125-127): writes
`pixels[col][row]` — the SECOND parameter indexes the outer vector.
Out-of-bounds indexing (a Rust panic) is modelled as `none`. -/
def set_pixel (canvas : Canvas) (row col : Nat) (color : Color) :
    Option Canvas :=
  (canvas.pixels[col]?).bind fun rowList =>
    if row < rowList.length then
      some { canvas with pixels := canvas.pixels.set col (rowList.set row color) }
    else none

/-- Translation of `Canvas::draw` (lines 129-133), with the drawable
represented by its emitted coordinate list (`coordinates()`): paint
every emitted `(row, col)` in order via `set_pixel`; the first
out-of-bounds access aborts (models the Rust panic). -/
def draw (canvas : Canvas) (coords : List (Nat × Nat)) (color : Color) :
    Option Canvas :=
  coords.foldlM (fun c rc => set_pixel c rc.1 rc.2 color) canvas

end Canvas

/-! Theorems. -/

/-- Bus writes do not change the control pin levels. -/
theorem applyOps_map_busWrite (l : List (List Nat)) (s : PinState) :
    applyOps s (l.map SpiOp.busWrite) = s := by
  induction l generalizing s with
  | nil => rfl
  | cons x xs ih =>
      simp only [List.map_cons, applyOps, List.foldl_cons]
      exact ih s

/-- Claim C4: for the E673 family, every `update(buf)` call emits exactly
the family's fixed transaction sequence in order and byte-for-byte — the
reset pulse and busy wait, the thirteen configuration transactions of
`reset()`, then DTM1 carrying `buf`, PON, a wait, BTST2, the refresh
trigger DRF, the 32-second refresh wait (far longer than every other
wait, all of which are 300 ms), POF, and a final wait — with nothing
omitted, added, or reordered. -/
theorem C4_e673_update_transaction_sequence (buf : List Nat) :
    InkyE673.updateTrace buf =
      [HwEvent.setReset false, HwEvent.sleepMs 30,
       HwEvent.setReset true, HwEvent.sleepMs 30,
       HwEvent.waitBusy (some 300),
       HwEvent.spi 0xAA (some [0x49, 0x55, 0x20, 0x08, 0x09, 0x18]),
       HwEvent.spi 0x01 (some [0x3F]),
       HwEvent.spi 0x00 (some [0x5F, 0x69]),
       HwEvent.spi 0x05 (some [0x40, 0x1F, 0x1F, 0x2C]),
       HwEvent.spi 0x08 (some [0x6F, 0x1F, 0x1F, 0x22]),
       HwEvent.spi 0x06 (some [0x6F, 0x1F, 0x17, 0x17]),
       HwEvent.spi 0x03 (some [0x00, 0x54, 0x00, 0x44]),
       HwEvent.spi 0x60 (some [0x02, 0x00]),
       HwEvent.spi 0x30 (some [0x08]),
       HwEvent.spi 0x50 (some [0x3F]),
       HwEvent.spi 0x61 (some [0x03, 0x20, 0x01, 0xE0]),
       HwEvent.spi 0xE3 (some [0x2F]),
       HwEvent.spi 0x82 (some [0x01]),
       HwEvent.spi 0x10 (some buf),
       HwEvent.spi 0x04 none,
       HwEvent.waitBusy (some 300),
       HwEvent.spi 0x06 (some [0x6F, 0x1F, 0x17, 0x49]),
       HwEvent.spi 0x12 (some [0x00]),
       HwEvent.waitBusy (some 32000),
       HwEvent.spi 0x02 (some [0x00]),
       HwEvent.waitBusy (some 300)] ∧
    (∀ t, HwEvent.waitBusy (some t) ∈ InkyE673.updateTrace buf →
      t = 32000 ∨ t ≤ 300) := by
  constructor
  · rfl
  · intro t ht
    simp [InkyE673.updateTrace, InkyE673.resetTrace] at ht
    omega

/-- Witness for C4 at `buf = []`, `t = 300`. -/
theorem C4_witness : 300 = 32000 ∨ 300 ≤ 300 :=
  (C4_e673_update_transaction_sequence []).2 300 (by decide)

/-- Counterexample to claim C5: for the What family, a successful
`spi_send` of a payload-carrying packet (here the black/white pixel
buffer transaction, opcode 0x24) leaves the data/command line HIGH, not
back at its command-mode default low — `InkyWhat::spi_send` has no
trailing pin restore (and never drives chip-select at all). -/
theorem C5_counterexample :
    ¬ ((applyOps { cs := true, dc := false }
        (InkyWhat.spi_send (SpiPacket.with_data 0x24 [0x00]))).dc = false) := by
  decide

/-- Claim C5, amended: after every successful `spi_send` of the E673
family the chip-select line is back high and the data/command line back
low, regardless of payload; the What family's `spi_send` never drives
the chip-select line (it keeps its prior level) and leaves data/command
high exactly when the packet carried a payload. -/
theorem C5_spi_send_pin_restore (s : PinState) (packet : SpiPacket) :
    (applyOps s (InkyE673.spi_send packet)).cs = true ∧
    (applyOps s (InkyE673.spi_send packet)).dc = false ∧
    (applyOps s (InkyWhat.spi_send packet)).cs = s.cs ∧
    (applyOps s (InkyWhat.spi_send packet)).dc = packet.data.isSome := by
  obtain ⟨cmd, data⟩ := packet
  cases data with
  | none =>
      simp [InkyE673.spi_send, InkyWhat.spi_send, applyOps, applyOp]
  | some d =>
      simp [InkyE673.spi_send, InkyWhat.spi_send, applyOps, applyOp,
        List.foldl_append, applyOps_map_busWrite,
        show ∀ s : PinState, List.foldl applyOp s (List.map SpiOp.busWrite (d.toChunks 4096)) = s
          from fun s => applyOps_map_busWrite (d.toChunks 4096) s]

/-- Claim C7: for the E673 family, a `wait` entered with the busy line
high (the unreliable-signal level) sleeps for the given timeout — or
the 100 ms default when none is supplied — and returns Ok without ever
arming an edge watch, so no watch is left armed afterward. -/
theorem C7_e673_wait_level_sense (env : GpioEnv) (t : Option Nat)
    (h : env.busyHigh = true) :
    InkyE673.wait env t = ([WaitEv.slept (t.getD 100)], Except.ok ()) ∧
    (∀ trig, WaitEv.armed trig ∉ (InkyE673.wait env t).1) ∧
    InkyE673.wait env none = ([WaitEv.slept 100], Except.ok ()) := by
  refine ⟨by simp [InkyE673.wait, h], ?_, by simp [InkyE673.wait, h]⟩
  intro trig
  simp [InkyE673.wait, h]

/-- Witness for C7 at a concrete environment with the busy line high and
a 250 ms timeout. -/
theorem C7_witness :
    InkyE673.wait
      { busyHigh := true, armResult := Except.ok (),
        pollResult := Except.ok PollOutcome.fired, clearResult := Except.ok () }
      (some 250) = ([WaitEv.slept 250], Except.ok ()) :=
  (C7_e673_wait_level_sense _ _ rfl).1

/-- Claim C8: the line from (0,0) to (0,5) rasterizes to exactly the six
coordinates (0,0) … (0,5) in order; the line from (0,0) to (5,0)
symmetrically rasterizes to (0,0) … (5,0) in order; and every
degenerate line (start = end) yields exactly the one coordinate pushed
for its start point (its `as usize` image). -/
theorem C8_line_rasterization :
    Line.line_coordinates { start := (0, 0), stop := (0, 5) }
      = [(0, 0), (0, 1), (0, 2), (0, 3), (0, 4), (0, 5)] ∧
    Line.line_coordinates { start := (0, 0), stop := (5, 0) }
      = [(0, 0), (1, 0), (2, 0), (3, 0), (4, 0), (5, 0)] ∧
    (∀ a b : Int, Line.line_coordinates { start := (a, b), stop := (a, b) }
      = [(usizeOfInt a, usizeOfInt b)]) := by
  refine ⟨by decide, by decide, ?_⟩
  intro a b
  simp [Line.line_coordinates, lineLoop]

/-- Claim C3: the six-color convert fails exactly on grids with an
odd-length row (always with the format error message), and a conversion
error makes the facade's `update` return that error without emitting any
hardware transaction. `InkyE673.convert` is a pure function of the grid,
so the canvas itself is untouched by construction. -/
theorem C3_e673_convert_error_iff_odd_row (grid : List (List Color)) :
    ((∃ row ∈ grid, row.length % 2 = 1) ↔
      InkyE673.convert grid = Except.error "Row length must be even!") ∧
    (∀ e, InkyE673.convert grid = Except.error e →
      Inky.update grid = Except.error e) := by
  constructor
  · induction grid with
    | nil =>
        constructor
        · rintro ⟨row, hmem, _⟩
          exact absurd hmem (List.not_mem_nil row)
        · intro h
          exact absurd h (by simp [InkyE673.convert])
    | cons row rest ih =>
        by_cases hrow : row.length % 2 = 0
        · constructor
          · rintro ⟨r', hr', hodd⟩
            rcases List.mem_cons.mp hr' with rfl | hmem
            · omega
            · have hrest := ih.mp ⟨r', hmem, hodd⟩
              simp [InkyE673.convert, hrow, hrest]
          · intro h
            cases hc : InkyE673.convert rest with
            | ok r =>
                rw [InkyE673.convert, if_pos hrow, hc] at h
                cases h
            | error e =>
                rw [InkyE673.convert, if_pos hrow, hc] at h
                cases h
                obtain ⟨r', hm, ho⟩ := ih.mpr hc
                exact ⟨r', List.mem_cons_of_mem row hm, ho⟩
        · have h1 : row.length % 2 = 1 := by omega
          constructor
          · intro _
            rw [InkyE673.convert, if_neg hrow]
          · intro _
            exact ⟨row, List.mem_cons_self row rest, h1⟩
  · intro e h
    simp [Inky.update, h]

/-- Witness for C3 at the single-odd-row grid `[[Black]]`. -/
theorem C3_witness :
    Inky.update [[Color.Black]] = Except.error "Row length must be even!" :=
  (C3_e673_convert_error_iff_odd_row [[Color.Black]]).2 _ rfl

/-- Counterexample to claim C6: in the edge-detection wait policy (here
the What family's `wait`), an armed watch that does NOT fire within the
timeout — the poll comes back timed-out — still makes `wait` return Ok,
not an error: the `?` operator propagates only I/O failures and the
successful poll's fired/timed-out value is discarded. -/
theorem C6_counterexample :
    (InkyWhat.wait
      { busyHigh := false, armResult := Except.ok (),
        pollResult := Except.ok PollOutcome.timedOut,
        clearResult := Except.ok () } (some 1000)).2 = Except.ok () := rfl

/-- Claim C6, amended: a wait whose armed edge watch times out without
firing returns Ok in both families (the timed-out outcome is discarded;
only I/O failures of the arm/poll/disarm calls are propagated), and the
level-sense fallback branch always returns Ok after sleeping for the
timeout duration. -/
theorem C6_wait_timeout_policy (env : GpioEnv) (t : Option Nat)
    (ha : env.armResult = Except.ok ())
    (hp : env.pollResult = Except.ok PollOutcome.timedOut)
    (hc : env.clearResult = Except.ok ()) :
    (InkyWhat.wait env t).2 = Except.ok () ∧
    (InkyE673.wait env t).2 = Except.ok () ∧
    (env.busyHigh = true →
      InkyE673.wait env t = ([WaitEv.slept (t.getD 100)], Except.ok ())) := by
  refine ⟨by simp [InkyWhat.wait, ha, hp, hc], ?_,
    fun hb => by simp [InkyE673.wait, hb]⟩
  by_cases hb : env.busyHigh <;> simp [InkyE673.wait, hb, ha, hp, hc]

/-- Witness for C6 at a concrete low-busy environment whose poll times
out. -/
theorem C6_witness :
    (InkyE673.wait
      { busyHigh := false, armResult := Except.ok (),
        pollResult := Except.ok PollOutcome.timedOut,
        clearResult := Except.ok () }
      (some 100)).2 = Except.ok () :=
  (C6_wait_timeout_policy _ (some 100) rfl rfl rfl).2.1

/-- Counterexample to claim C9: drawing a rectangle whose corners lie
outside a 1-by-1 canvas makes the unchecked indexing of `set_pixel` go
out of bounds (modelled as `none`): coordinates generated internally by
a shape are not automatically within the canvas. -/
theorem C9_counterexample :
    Canvas.draw (Canvas.new 1 1)
      (Rectangle.rectangle_coordinates { top_left := (0, 0), bottom_right := (1, 1) })
      Color.Black = none := by decide

/-- Claim C9, amended: on a well-formed canvas, `draw` stays in bounds —
every `set_pixel` it performs succeeds — provided every coordinate
`(row, col)` the shape emits satisfies `row < width` and
`col` below the number of pixel rows (the height); a shape emitting a
coordinate outside these bounds makes the unchecked indexing go out of
bounds, as the counterexample shows. -/
theorem C9_draw_in_bounds (cv : Canvas) (coords : List (Nat × Nat)) (color : Color)
    (hw : ∀ row ∈ cv.pixels, row.length = cv.width)
    (hb : ∀ rc ∈ coords, rc.1 < cv.width ∧ rc.2 < cv.pixels.length) :
    (Canvas.draw cv coords color).isSome = true := by
  induction coords generalizing cv with
  | nil => simp [Canvas.draw]
  | cons rc rest ih =>
      obtain ⟨h1, h2⟩ := hb rc (List.mem_cons_self rc rest)
      have hrow : cv.pixels[rc.2]? = some (cv.pixels[rc.2]) :=
        List.getElem?_eq_getElem h2
      have hlen : (cv.pixels[rc.2]).length = cv.width :=
        hw _ (List.getElem_mem h2)
      have hset : Canvas.set_pixel cv rc.1 rc.2 color =
          some { cv with
            pixels := cv.pixels.set rc.2 ((cv.pixels[rc.2]).set rc.1 color) } := by
        unfold Canvas.set_pixel
        rw [hrow, Option.some_bind, if_pos (by rw [hlen]; exact h1)]
      simp only [Canvas.draw, List.foldlM_cons] at *
      rw [hset]
      show (Canvas.draw _ rest color).isSome = true
      apply ih
      · intro row hm
        rcases List.mem_or_eq_of_mem_set hm with hold | heq
        · exact hw row hold
        · rw [heq, List.length_set]
          exact hlen
      · intro rc' hm
        have := hb rc' (List.mem_cons_of_mem rc hm)
        simpa [List.length_set] using this

/-- Witness for C9 (amended) on a 2-by-2 canvas with two in-bounds
coordinates. -/
theorem C9_witness :
    (Canvas.draw
      { width := 2, height := 2,
        pixels := [[Color.White, Color.White], [Color.White, Color.White]] }
      [(0, 0), (1, 1)] Color.Black).isSome = true :=
  C9_draw_in_bounds _ _ Color.Black
    (by intro row hm; fin_cases hm <;> rfl)
    (by intro rc hm; fin_cases hm <;> exact ⟨by decide, by decide⟩)

/-- Claim C10: reading back a written pixel swaps the argument order —
after `set_pixel(row, col, color)` the read `get_pixel(col, row)`
returns that color, because both index the backing storage as
`pixels[second-of-set][first-of-set]`; the unswapped read
`get_pixel(row, col)` reads the transposed storage cell, which (when
`row ≠ col`) the write left untouched. -/
theorem C10_get_set_transposed (cv : Canvas) (r c : Nat) (color : Color)
    (cv' : Canvas) (h : Canvas.set_pixel cv r c color = some cv') :
    Canvas.get_pixel cv' c r = some color ∧
    (r ≠ c → Canvas.get_pixel cv' r c = Canvas.get_pixel cv r c) := by
  unfold Canvas.set_pixel at h
  cases hc : cv.pixels[c]? with
  | none => rw [hc, Option.none_bind] at h; cases h
  | some rowList =>
      rw [hc, Option.some_bind] at h
      by_cases hr : r < rowList.length
      · rw [if_pos hr] at h
        injection h with h'
        subst h'
        obtain ⟨hclen, -⟩ := List.getElem?_eq_some_iff.mp hc
        constructor
        · show ((cv.pixels.set c (rowList.set r color))[c]?).bind _ = some color
          rw [List.getElem?_set_self hclen]
          show (rowList.set r color)[r]? = some color
          exact List.getElem?_set_self hr
        · intro hne
          show ((cv.pixels.set c (rowList.set r color))[r]?).bind _ = _
          rw [List.getElem?_set_ne (Ne.symm hne)]
          rfl
      · rw [if_neg hr] at h
        cases h

/-- Witness for C10: write Black at `set_pixel(0, 1)` on a fresh 2-by-2
canvas; the swapped read `get_pixel(1, 0)` returns Black while the
unswapped read `get_pixel(0, 1)` still sees the original White. -/
theorem C10_witness :
    Canvas.get_pixel
      { width := 2, height := 2,
        pixels := [[Color.White, Color.White], [Color.Black, Color.White]] } 1 0
      = some Color.Black ∧
    Canvas.get_pixel
      { width := 2, height := 2,
        pixels := [[Color.White, Color.White], [Color.Black, Color.White]] } 0 1
      = Canvas.get_pixel (Canvas.new 2 2) 0 1 :=
  ⟨(C10_get_set_transposed (Canvas.new 2 2) 0 1 Color.Black _ rfl).1,
   (C10_get_set_transposed (Canvas.new 2 2) 0 1 Color.Black _ rfl).2 (by decide)⟩

/-- Packing distributes over an even-length first segment. -/
theorem packPairs_append : ∀ (row : List Color), row.length % 2 = 0 →
    ∀ rest, InkyE673.packPairs (row ++ rest)
      = InkyE673.packPairs row ++ InkyE673.packPairs rest
  | [], _, rest => rfl
  | [_], h, _ => by simp [List.length_cons] at h
  | p1 :: p2 :: tl, h, rest => by
      have h' : tl.length % 2 = 0 := by
        simp only [List.length_cons] at h
        omega
      simp only [List.cons_append, InkyE673.packPairs, List.append_eq,
        packPairs_append tl h' rest]

/-- On grids whose rows all have even length, `convert` succeeds and is
the pair-packing of the row-major flattening of the grid. -/
theorem convert_eq_packPairs_flatten (grid : List (List Color))
    (h : ∀ row ∈ grid, row.length % 2 = 0) :
    InkyE673.convert grid = Except.ok (InkyE673.packPairs grid.flatten) := by
  induction grid with
  | nil => rfl
  | cons row rest ih =>
      have hrow := h row (List.mem_cons_self row rest)
      have hrest := ih (fun r hr => h r (List.mem_cons_of_mem row hr))
      rw [InkyE673.convert, if_pos hrow, hrest, List.flatten_cons,
        packPairs_append row hrow rest.flatten]

/-- Pair-packing halves the length. -/
theorem packPairs_length : ∀ l : List Color,
    (InkyE673.packPairs l).length = l.length / 2
  | [] => rfl
  | [_] => by simp [InkyE673.packPairs]
  | _ :: _ :: tl => by
      simp only [InkyE673.packPairs, List.length_cons, packPairs_length tl]
      omega

/-- Byte `k` of the pair-packing holds the 4-bit code of pixel `2k` in
its high nibble and of pixel `2k+1` in its low nibble. -/
theorem packPairs_nibbles : ∀ (l : List Color) (k : Nat), 2 * k + 1 < l.length →
    ((InkyE673.packPairs l).getD k 0) / 16
        = InkyE673.as_u8 (l.getD (2 * k) Color.Black) ∧
    ((InkyE673.packPairs l).getD k 0) % 16
        = InkyE673.as_u8 (l.getD (2 * k + 1) Color.Black)
  | [], _, h => by simp at h
  | [_], _, h => by simp only [List.length_cons, List.length_nil] at h; omega
  | p1 :: p2 :: tl, 0, _ => by
      cases p1 <;> cases p2 <;>
        simp only [InkyE673.packPairs, List.getD_cons_zero, Nat.mul_zero,
          List.getD_cons_succ, Nat.zero_add] <;> (try decide)
  | p1 :: p2 :: tl, k + 1, h => by
      have h' : 2 * k + 1 < tl.length := by
        simp only [List.length_cons] at h
        omega
      have e1 : 2 * (k + 1) = 2 * k + 1 + 1 := by ring
      rw [e1]
      simp only [InkyE673.packPairs, List.getD_cons_succ]
      exact packPairs_nibbles tl k h'

/-- Claim C1: on every grid whose rows all have the (even) length `w` and
whose values are supported colors, the six-color convert returns Ok
with `w / 2 * rowCount` bytes, and byte `k` carries the 4-bit code of
flattened pixel `2k` in its high nibble and of pixel `2k+1` in its low
nibble, under the `as_u8` encoding (Black=0, White=1, Yellow=2, Red=3,
Blue=5, Green=6). -/
theorem C1_e673_convert_pairs (grid : List (List Color)) (w : Nat)
    (hlen : ∀ row ∈ grid, row.length = w) (heven : w % 2 = 0) :
    ∃ out, InkyE673.convert grid = Except.ok out ∧
      out.length = w / 2 * grid.length ∧
      ∀ k, k < out.length →
        (out.getD k 0) / 16
            = InkyE673.as_u8 (grid.flatten.getD (2 * k) Color.Black) ∧
        (out.getD k 0) % 16
            = InkyE673.as_u8 (grid.flatten.getD (2 * k + 1) Color.Black) := by
  have heach : ∀ row ∈ grid, row.length % 2 = 0 := fun r hr => by
    rw [hlen r hr]; exact heven
  have hflat : grid.flatten.length = w * grid.length := by
    rw [List.length_flatten]
    induction grid with
    | nil => simp
    | cons row rest ih =>
        simp only [List.map_cons, List.sum_cons, List.length_cons,
          hlen row (List.mem_cons_self row rest),
          ih (fun r hr => hlen r (List.mem_cons_of_mem row hr))
            (fun r hr => heach r (List.mem_cons_of_mem row hr))]
        ring
  obtain ⟨m, rfl⟩ : ∃ m, w = 2 * m := ⟨w / 2, by omega⟩
  have hLeven : grid.flatten.length % 2 = 0 := by
    rw [hflat, Nat.mul_assoc]
    exact Nat.mul_mod_right 2 _
  refine ⟨InkyE673.packPairs grid.flatten,
    convert_eq_packPairs_flatten grid heach, ?_, ?_⟩
  · rw [packPairs_length, hflat, Nat.mul_assoc,
      Nat.mul_div_cancel_left _ (by norm_num : (0:Nat) < 2),
      Nat.mul_div_cancel_left _ (by norm_num : (0:Nat) < 2)]
  · intro k hk
    rw [packPairs_length] at hk
    exact packPairs_nibbles grid.flatten k (by omega)

/-- Witness for C1 on a 2-by-2 grid. -/
theorem C1_witness :
    ∃ out, InkyE673.convert [[Color.Blue, Color.Green], [Color.Red, Color.White]]
        = Except.ok out ∧
      out.length = 2 / 2 * 2 ∧
      ∀ k, k < out.length →
        (out.getD k 0) / 16
            = InkyE673.as_u8
              ([[Color.Blue, Color.Green], [Color.Red, Color.White]].flatten.getD
                (2 * k) Color.Black) ∧
        (out.getD k 0) % 16
            = InkyE673.as_u8
              ([[Color.Blue, Color.Green], [Color.Red, Color.White]].flatten.getD
                (2 * k + 1) Color.Black) :=
  C1_e673_convert_pairs [[Color.Blue, Color.Green], [Color.Red, Color.White]] 2
    (by intro row hm; fin_cases hm <;> rfl) (by decide)

/-- Folding the packer state over the rows one by one is folding it over
the row-major flattening of the grid. -/
theorem foldl_rows_eq_flatten (buf : List (List Color))
    (init : InkyWhat.ConvState) :
    buf.foldl (fun st row => row.foldl InkyWhat.convStep st) init
      = buf.flatten.foldl InkyWhat.convStep init := by
  induction buf generalizing init with
  | nil => rfl
  | cons row rest ih => simp [List.flatten_cons, List.foldl_append, ih]

/-- The monochrome bit of a color is 1 exactly on non-black colors. -/
theorem as_u8_eq_one_iff (c : Color) :
    InkyWhat.as_u8 c = 1 ↔ c ≠ Color.Black := by
  cases c <;> decide

/-- Bit `k` of the number one. -/
theorem testBit_one (k : Nat) : Nat.testBit 1 k = decide (k = 0) := by
  cases k <;> simp [Nat.testBit_succ]

/-- Bits of the packer's OR-accumulation step: OR-ing the (u8-truncated)
shifted pixel bit into `cur` sets exactly bit `bp` when the pixel is
non-black and leaves all other bits as in `cur`. -/
theorem testBit_or_shift (cur : Nat) (c : Color) (bp b : Nat) (hbp : bp < 8) :
    ((cur ||| ((InkyWhat.as_u8 c <<< bp) % 256)).testBit b = true) ↔
      (cur.testBit b = true ∨ (b = bp ∧ c ≠ Color.Black)) := by
  rw [Nat.testBit_or, show (256 : Nat) = 2 ^ 8 by norm_num,
    Nat.testBit_mod_two_pow, Nat.testBit_shiftLeft, Bool.or_eq_true]
  rcases eq_or_ne c Color.Black with rfl | hc
  · simp [InkyWhat.as_u8, Nat.zero_testBit]
  · rw [(as_u8_eq_one_iff c).mpr hc, testBit_one]
    simp only [Bool.and_eq_true, decide_eq_true_eq]
    constructor
    · rintro (h | ⟨h8, hge, h0⟩)
      · exact Or.inl h
      · exact Or.inr ⟨by omega, hc⟩
    · rintro (h | ⟨rfl, -⟩)
      · exact Or.inl h
      · exact Or.inr ⟨hbp, by omega, by omega⟩

/-- Element defaulting distributes over appending one element: indices
below the old length read the old list. -/
theorem getD_concat_lt {α : Type} (l : List α) (c d : α) (i : Nat)
    (h : i < l.length) : (l ++ [c]).getD i d = l.getD i d := by
  rw [List.getD_eq_getElem?_getD, List.getElem?_append_left h,
    ← List.getD_eq_getElem?_getD]

/-- The appended element is read at the old length. -/
theorem getD_concat_len {α : Type} (l : List α) (c d : α) :
    (l ++ [c]).getD l.length d = c := by
  simp [List.getD_eq_getElem?_getD, List.getElem?_concat_length]

/-- Invariant of the monochrome packer's fold: after consuming `l`, the
bit position is `l.length % 8`, the flushed bytes are `l.length / 8`,
bit `b` of flushed byte `j` is set exactly when pixel `8j + b` of `l` is
non-black, and bit `b` of the partial byte is set exactly when
`b < l.length % 8` and pixel `8 * (l.length / 8) + b` is non-black (so
its unused high bits are zero). -/
theorem convFold_invariant (l : List Color) :
    ((l.foldl InkyWhat.convStep ⟨[], 0, 0⟩).bit_pos = l.length % 8) ∧
    ((l.foldl InkyWhat.convStep ⟨[], 0, 0⟩).result.length = l.length / 8) ∧
    (∀ j b,
      (((l.foldl InkyWhat.convStep ⟨[], 0, 0⟩).result.getD j 0).testBit b = true) ↔
        (j < l.length / 8 ∧ b < 8 ∧
          l.getD (8 * j + b) Color.Black ≠ Color.Black)) ∧
    (∀ b,
      ((l.foldl InkyWhat.convStep ⟨[], 0, 0⟩).cur_byte.testBit b = true) ↔
        (b < l.length % 8 ∧
          l.getD (8 * (l.length / 8) + b) Color.Black ≠ Color.Black)) := by
  induction l using List.reverseRecOn with
  | nil =>
      refine ⟨rfl, rfl, ?_, ?_⟩
      · intro j b
        simp [Nat.zero_testBit]
      · intro b
        simp [Nat.zero_testBit]
  | append_singleton l c ih =>
      obtain ⟨ihp, ihl, ihres, ihcur⟩ := ih
      rw [List.foldl_concat]
      set st := l.foldl InkyWhat.convStep (⟨[], 0, 0⟩ : InkyWhat.ConvState)
        with hst
      have hbp : st.bit_pos < 8 := by rw [ihp]; omega
      have hlen1 : (l ++ [c]).length = l.length + 1 := by
        simp [List.length_append]
      by_cases h7 : st.bit_pos + 1 = 8
      · -- the flush branch: the byte being filled receives its final bit
        have hn7 : l.length % 8 = 7 := by omega
        have hstep : InkyWhat.convStep st c =
            { result := st.result ++
                [st.cur_byte ||| ((InkyWhat.as_u8 c <<< st.bit_pos) % 256)],
              cur_byte := 0, bit_pos := 0 } := by
          unfold InkyWhat.convStep
          rw [if_pos h7]
        rw [hstep, hlen1]
        refine ⟨by show (0 : Nat) = (l.length + 1) % 8; omega, ?_, ?_, ?_⟩
        · simp only [List.length_append, List.length_cons, List.length_nil, ihl]
          omega
        · intro j b
          rcases lt_trichotomy j (l.length / 8) with hj | hj | hj
          · rw [getD_concat_lt _ _ _ j (by rw [ihl]; exact hj)]
            rw [show ((st.result.getD j 0).testBit b = true) ↔ _ from ihres j b]
            constructor
            · rintro ⟨-, hb8, hpix⟩
              have hidx : 8 * j + b < l.length := by omega
              rw [getD_concat_lt _ _ _ _ hidx]
              exact ⟨by omega, hb8, hpix⟩
            · rintro ⟨-, hb8, hpix⟩
              have hidx : 8 * j + b < l.length := by omega
              rw [getD_concat_lt _ _ _ _ hidx] at hpix
              exact ⟨hj, hb8, hpix⟩
          · have hres : (st.result ++
                [st.cur_byte ||| ((InkyWhat.as_u8 c <<< st.bit_pos) % 256)]).getD j 0
                = st.cur_byte ||| ((InkyWhat.as_u8 c <<< st.bit_pos) % 256) := by
              rw [hj, ← ihl, getD_concat_len]
            rw [hres, testBit_or_shift st.cur_byte c st.bit_pos b hbp]
            rw [show ((st.cur_byte.testBit b = true) ↔ _) from ihcur b, ihp]
            subst hj
            constructor
            · rintro (⟨hblt, hpix⟩ | ⟨rfl, hc⟩)
              · have hidx : 8 * (l.length / 8) + b < l.length := by omega
                rw [getD_concat_lt _ _ _ _ hidx]
                exact ⟨by omega, by omega, hpix⟩
              · have hidx : 8 * (l.length / 8) + l.length % 8 = l.length := by
                  omega
                rw [hidx, getD_concat_len]
                exact ⟨by omega, by omega, hc⟩
            · rintro ⟨-, hb8, hpix⟩
              by_cases hb7 : b < 7
              · have hidx : 8 * (l.length / 8) + b < l.length := by omega
                rw [getD_concat_lt _ _ _ _ hidx] at hpix
                exact Or.inl ⟨by omega, hpix⟩
              · have hb : b = 7 := by omega
                subst hb
                have hidx : 8 * (l.length / 8) + 7 = l.length := by omega
                rw [hidx, getD_concat_len] at hpix
                exact Or.inr ⟨by omega, hpix⟩
          · constructor
            · intro hbit
              exfalso
              have hout : st.result.length + 1 ≤ j := by omega
              have : (st.result ++
                  [st.cur_byte ||| ((InkyWhat.as_u8 c <<< st.bit_pos) % 256)]).getD
                    j 0 = 0 := by
                rw [List.getD_eq_getElem?_getD, List.getElem?_eq_none
                  (by simp only [List.length_append, List.length_cons,
                    List.length_nil]; omega)]
                rfl
              rw [this, Nat.zero_testBit] at hbit
              cases hbit
            · rintro ⟨hjlt, -, -⟩
              omega
        · intro b
          simp only [Nat.zero_testBit]
          constructor
          · intro hb
            cases hb
          · rintro ⟨hb, -⟩
            omega
      · -- the non-flush branch: the byte keeps filling
        have hstep : InkyWhat.convStep st c =
            { result := st.result,
              cur_byte := st.cur_byte ||| ((InkyWhat.as_u8 c <<< st.bit_pos) % 256),
              bit_pos := st.bit_pos + 1 } := by
          unfold InkyWhat.convStep
          rw [if_neg h7]
        rw [hstep, hlen1]
        have hmod : l.length % 8 + 1 = (l.length + 1) % 8 := by omega
        have hdiv : l.length / 8 = (l.length + 1) / 8 := by omega
        refine ⟨by simp only [ihp]; omega, by simp only [ihl]; omega, ?_, ?_⟩
        · intro j b
          rw [show ((st.result.getD j 0).testBit b = true) ↔ _ from ihres j b]
          constructor
          · rintro ⟨hj, hb8, hpix⟩
            have hidx : 8 * j + b < l.length := by omega
            rw [getD_concat_lt _ _ _ _ hidx]
            exact ⟨by omega, hb8, hpix⟩
          · rintro ⟨hj, hb8, hpix⟩
            have hj' : j < l.length / 8 := by omega
            have hidx : 8 * j + b < l.length := by omega
            rw [getD_concat_lt _ _ _ _ hidx] at hpix
            exact ⟨hj', hb8, hpix⟩
        · intro b
          rw [testBit_or_shift st.cur_byte c st.bit_pos b hbp]
          rw [show ((st.cur_byte.testBit b = true) ↔ _) from ihcur b, ihp]
          rw [← hdiv]
          constructor
          · rintro (⟨hblt, hpix⟩ | ⟨rfl, hc⟩)
            · have hidx : 8 * (l.length / 8) + b < l.length := by omega
              rw [getD_concat_lt _ _ _ _ hidx]
              exact ⟨by omega, hpix⟩
            · have hidx : 8 * (l.length / 8) + l.length % 8 = l.length := by
                omega
              rw [hidx, getD_concat_len]
              exact ⟨by omega, hc⟩
          · rintro ⟨hblt, hpix⟩
            by_cases hbeq : b = l.length % 8
            · have hidx : 8 * (l.length / 8) + b = l.length := by omega
              rw [hidx, getD_concat_len] at hpix
              exact Or.inr ⟨by omega, hpix⟩
            · have hidx : 8 * (l.length / 8) + b < l.length := by omega
              rw [getD_concat_lt _ _ _ _ hidx] at hpix
              exact Or.inl ⟨by omega, hpix⟩

/-- Claim C2: the monochrome convert always returns Ok with
`ceil(totalPixels / 8)` bytes; bit `i mod 8` of byte `i div 8` is set
exactly when pixel `i` (row-major, counted continuously across row
boundaries) exists and is not Black — so it is 0 for Black pixels, 1
otherwise, and the unused high bits of a final partial byte are 0. -/
theorem C2_what_convert_bit_packing (grid : List (List Color)) (out : List Nat)
    (h : InkyWhat.convert grid = Except.ok out) :
    out.length = (grid.flatten.length + 7) / 8 ∧
    ∀ i, i < 8 * out.length →
      ((out.getD (i / 8) 0).testBit (i % 8) = true ↔
        (i < grid.flatten.length ∧
          grid.flatten.getD i Color.Black ≠ Color.Black)) := by
  obtain ⟨hp, hl, hres, hcur⟩ := convFold_invariant grid.flatten
  simp only [InkyWhat.convert, foldl_rows_eq_flatten] at h
  set st := grid.flatten.foldl InkyWhat.convStep
    (⟨[], 0, 0⟩ : InkyWhat.ConvState) with hst
  set n := grid.flatten.length with hn
  by_cases hbp0 : st.bit_pos ≠ 0
  · rw [if_pos hbp0] at h
    injection h with h'
    subst h'
    have hmod : n % 8 ≠ 0 := by rw [← hp]; exact hbp0
    have hlo : (st.result ++ [st.cur_byte]).length = n / 8 + 1 := by
      simp only [List.length_append, List.length_cons, List.length_nil, hl]
    rw [hlo]
    constructor
    · omega
    · intro i hi
      by_cases hj : i / 8 < n / 8
      · rw [getD_concat_lt _ _ _ _ (by rw [hl]; exact hj)]
        rw [hres (i / 8) (i % 8), Nat.div_add_mod]
        constructor
        · rintro ⟨-, -, hpix⟩
          exact ⟨by omega, hpix⟩
        · rintro ⟨hin, hpix⟩
          exact ⟨hj, by omega, hpix⟩
      · have hj8 : i / 8 = n / 8 := by omega
        have hres2 : (st.result ++ [st.cur_byte]).getD (i / 8) 0 = st.cur_byte := by
          rw [hj8, ← hl, getD_concat_len]
        rw [hres2, hcur (i % 8), ← hj8, Nat.div_add_mod]
        constructor
        · rintro ⟨hlt, hpix⟩
          exact ⟨by omega, hpix⟩
        · rintro ⟨hin, hpix⟩
          exact ⟨by omega, hpix⟩
  · rw [if_neg hbp0] at h
    injection h with h'
    subst h'
    have hmod : n % 8 = 0 := by
      rw [← hp]
      omega
    rw [hl]
    constructor
    · omega
    · intro i hi
      have hj : i / 8 < n / 8 := by omega
      rw [hres (i / 8) (i % 8), Nat.div_add_mod]
      constructor
      · rintro ⟨-, -, hpix⟩
        exact ⟨by omega, hpix⟩
      · rintro ⟨hin, hpix⟩
        exact ⟨hj, by omega, hpix⟩

/-- Witness for C2 on a 3-pixel grid (one partial byte). -/
theorem C2_witness :
    [6].length = ([[Color.Black, Color.White, Color.White]].flatten.length + 7) / 8 ∧
    (([6].getD (1 / 8) 0).testBit (1 % 8) = true ↔
      (1 < [[Color.Black, Color.White, Color.White]].flatten.length ∧
        [[Color.Black, Color.White, Color.White]].flatten.getD 1 Color.Black
          ≠ Color.Black)) :=
  ⟨(C2_what_convert_bit_packing [[Color.Black, Color.White, Color.White]] [6] rfl).1,
   (C2_what_convert_bit_packing [[Color.Black, Color.White, Color.White]] [6] rfl).2
     1 (by decide)⟩

